import Mathlib

/-!
Verification of codado/py.py: the Documentation docstring parser and the fromdir
directory-path resolver, shallowly embedded.  Python 2 string values are modeled
as lists of characters; the filesystem isfile query, os.path.expanduser, the
process working directory and the ftfy decoding collaborator are passed as
explicit parameters wherever the code consults them.
-/

set_option maxHeartbeats 1000000

/-- Python strings are modeled as lists of characters. -/
abbrev Str : Type := List Char

/-- Python str.split for a one-character separator; the result is never empty. -/
def pySplit (ch : Char) : Str → List Str
  | [] => [[]]
  | c :: rest =>
    if c = ch then [] :: pySplit ch rest
    else
      match pySplit ch rest with
      | [] => [[c]]
      | g :: gs => (c :: g) :: gs

/-- Python sep.join over a list of strings. -/
def joinWith (sep : Str) : List Str → Str
  | [] => []
  | [a] => a
  | a :: b :: rest => a ++ sep ++ joinWith sep (b :: rest)

/-- Membership in Python 2 string.whitespace. -/
def isPySpace (c : Char) : Bool :=
  c == ' ' || c == '\t' || c == '\n' || c == '\r' || c == '\x0B' || c == '\x0C'

/-- Python str.lstrip with the default whitespace set. -/
def lstripPy (s : Str) : Str := s.dropWhile isPySpace

/-- Python str.expandtabs with tab size 8; the column resets after a newline or a
carriage return. -/
def expandtabsAux : Nat → Str → Str
  | _, [] => []
  | col, c :: rest =>
    if c = '\t' then
      List.replicate (8 - col % 8) ' ' ++ expandtabsAux (col + (8 - col % 8)) rest
    else if c = '\n' || c = '\r' then c :: expandtabsAux 0 rest
    else c :: expandtabsAux (col + 1) rest

/-- One step of inspect.cleandoc's margin computation over the lines after the
first: blank lines are skipped, other lines contribute their indentation width. -/
def updMargin (m : Option Nat) (line : Str) : Option Nat :=
  let content := (lstripPy line).length
  if content ≠ 0 then
    match m with
    | none => some (line.length - content)
    | some v => some (min v (line.length - content))
  else m

/-- The phase of inspect.cleandoc after tab expansion and line splitting: compute
the common margin of the lines after the first, strip that margin from them,
lstrip the first line, drop trailing then leading blank lines, and rejoin with
newlines. -/
def cleandocLines (lines : List Str) : Str :=
  let margin := (lines.drop 1).foldl updMargin none
  let lines2 :=
    match lines with
    | [] => ([] : List Str)
    | l0 :: rest =>
      lstripPy l0 ::
        (match margin with
         | none => rest
         | some m => rest.map (fun (l : Str) => l.drop m))
  let lines3 := (lines2.reverse.dropWhile (fun (l : Str) => l.isEmpty)).reverse
  let lines4 := lines3.dropWhile (fun (l : Str) => l.isEmpty)
  joinWith ['\n'] lines4

/-- inspect.cleandoc from the Python 2 standard library, at the character level:
expand tabs, split into lines, then run the line-level phase. -/
def cleandocChars (s : Str) : Str :=
  cleandocLines (pySplit '\n' (expandtabsAux 0 s))

/-- re.sub of the pattern matching two consecutive newlines, replacing each
non-overlapping leftmost match by a vertical tab. -/
def sub2 : Str → Str
  | [] => []
  | [c] => [c]
  | c1 :: c2 :: rest =>
    if c1 = '\n' ∧ c2 = '\n' then '\x0B' :: sub2 rest
    else c1 :: sub2 (c2 :: rest)

/-- str.replace of a newline by a space, one character at a time. -/
def sp (c : Char) : Char := if c = '\n' then ' ' else c

/-- str.replace of a vertical tab by two newlines. -/
def vexpand : Str → Str
  | [] => []
  | c :: rest => (if c = '\x0B' then ['\n', '\n'] else [c]) ++ vexpand rest

/-- A Python 2 string value: its characters plus whether it is a unicode object. -/
structure PyS where
  chars : Str
  uni : Bool

/-- The Documentation attrs class: the raw docstring and the decode attribute
(which defaults to False at every construction site in the module). -/
structure Documentation where
  raw : PyS
  decode : Bool

/-- Documentation.first: item 0 of raw.split on a newline; the split result is
never empty, so the fallback branch is unreachable. -/
def Documentation.first (d : Documentation) : Str :=
  match pySplit '\n' d.raw.chars with
  | [] => []
  | l :: _ => l

/-- Documentation.full: the docstring line-folded, via the vertical-tab trick. -/
def Documentation.full (d : Documentation) : Str :=
  vexpand (List.map sp (sub2 d.raw.chars))

/-- inspect.cleandoc lifted to a Python string value; character-level cleaning
preserves whether the value is unicode. -/
def cleandocPy (s : PyS) : PyS := ⟨cleandocChars s.chars, s.uni⟩

/-- Documentation.fromString.  The composition of utf-8 decoding with the
ftfy.fix_encoding collaborator is abstracted as the argument fix; its output is a
unicode value. -/
def Documentation.fromString (s : PyS) (dec : Bool) (fix : Str → Str) : Documentation :=
  let out := cleandocPy s
  if dec = false ∨ out.uni = true then ⟨out, false⟩
  else ⟨⟨fix out.chars, true⟩, false⟩

/-- Documentation.fromObject: the first argument models obj.__doc__, either None
or a string value.  With no docstring the result is the empty unicode string when
decode is requested and the empty byte string otherwise. -/
def Documentation.fromObject (doc? : Option PyS) (dec : Bool) (fix : Str → Str) :
    Documentation :=
  match doc? with
  | none => ⟨⟨[], dec⟩, false⟩
  | some d => Documentation.fromString d dec fix

/-- posixpath.isabs: does the path start with a slash. -/
def isabs (p : Str) : Bool :=
  match p with
  | [] => false
  | c :: _ => c == '/'

/-- posixpath.join restricted to two segments. -/
def pjoin2 (a b : Str) : Str :=
  if isabs b then b
  else if a = [] ∨ a.getLast? = some '/' then a ++ b
  else a ++ '/' :: b

/-- os.path.join over its nonempty argument list, folding pjoin2 from the first
argument. -/
def pjoinMany : List Str → Str
  | [] => []
  | a :: rest => rest.foldl pjoin2 a

/-- The single-dot path component. -/
def dot : Str := ['.']

/-- The dot-dot path component. -/
def dd : Str := ['.', '.']

/-- Does the path start with two slashes. -/
def startsSlash2 (p : Str) : Bool :=
  match p with
  | c1 :: c2 :: _ => c1 == '/' && c2 == '/'
  | _ => false

/-- Does the path start with three slashes. -/
def startsSlash3 (p : Str) : Bool :=
  match p with
  | c1 :: c2 :: c3 :: _ => c1 == '/' && c2 == '/' && c3 == '/'
  | _ => false

/-- One step of posixpath.normpath's component-filtering loop. -/
def normStep (abs : Bool) (acc : List Str) (comp : Str) : List Str :=
  if comp = [] ∨ comp = dot then acc
  else if comp ≠ dd ∨ (abs = false ∧ acc = []) ∨ (acc ≠ [] ∧ acc.getLast? = some dd) then
    acc ++ [comp]
  else if acc ≠ [] then acc.dropLast
  else acc

/-- posixpath.normpath. -/
def normpath (p : Str) : Str :=
  if p = [] then dot
  else
    let abs := isabs p
    let slashes : Nat :=
      if abs then (if startsSlash2 p = true ∧ startsSlash3 p = false then 2 else 1) else 0
    let nc := (pySplit '/' p).foldl (normStep abs) []
    let out := List.replicate slashes '/' ++ joinWith ['/'] nc
    if out = [] then dot else out

/-- os.path.abspath, with the process working directory passed explicitly. -/
def abspath (cwd p : Str) : Str :=
  if isabs p then normpath p else normpath (pjoin2 cwd p)

/-- posixpath.dirname's head: the prefix of the path up to and including the last
slash, empty when there is no slash. -/
def headUpToLastSlash : Str → Str
  | [] => []
  | c :: rest =>
    if rest.contains '/' then c :: headUpToLastSlash rest
    else if c = '/' then ['/'] else []

/-- str.rstrip of slashes. -/
def rstripSlashes (s : Str) : Str := (s.reverse.dropWhile (fun c => c == '/')).reverse

/-- posixpath.dirname: the head up to the last slash, with trailing slashes
stripped unless the head is empty or consists only of slashes. -/
def dirname (p : Str) : Str :=
  let head := headUpToLastSlash p
  if head = [] ∨ head = List.replicate head.length '/' then head
  else rstripSlashes head

/-- The module's _sibpath helper (copied from twisted): join the directory part of
the absolute path with the sibling name. -/
def sibpath (cwd path sibling : Str) : Str :=
  pjoin2 (dirname (abspath cwd path)) sibling

/-- The fromdir instance state: the accumulated base path. -/
structure fromdir where
  path : Str

/-- One iteration of fromdir.__init__'s loop: expand the user, join onto the
accumulated path, make it absolute, and collapse to the containing directory when
the result is an existing regular file.  os.path.expanduser is abstracted as eu,
the os.path.isfile query as fs, and the working directory used by abspath as cwd. -/
def fromdirStep (eu : Str → Str) (fs : Str → Bool) (cwd : Str) (path cur : Str) : Str :=
  let c := eu cur
  let p := abspath cwd (pjoin2 path c)
  if fs p then sibpath cwd p [] else p

/-- fromdir.__init__ over the whole fragment sequence, starting from the empty
string. -/
def fromdirInit (eu : Str → Str) (fs : Str → Bool) (cwd : Str) (paths : List Str) :
    fromdir :=
  ⟨paths.foldl (fromdirStep eu fs cwd) []⟩

/-- fromdir.__call__: os.path.join of the stored path with the arguments, in
order; pure string manipulation with no filesystem or process-state parameter. -/
def fromdirCall (r : fromdir) (args : List Str) : Str :=
  pjoinMany (r.path :: args)

/-- The mutable process state touched by the context manager: the current working
directory. -/
structure ProcState where
  cwd : Str

/-- fromdir.__enter__: record os.getcwd into _origDir (the first component of the
result) and chdir to the stored path. -/
def fromdirEnter (r : fromdir) (s : ProcState) : Str × ProcState :=
  (s.cwd, ⟨r.path⟩)

/-- fromdir.__exit__: chdir back to the recorded _origDir, ignoring the exception
information. -/
def fromdirExit (origDir : Str) (_s : ProcState) : ProcState :=
  ⟨origDir⟩

/-- A scoped activation: enter, run the body (which may itself move the working
directory, and whose Bool records whether it finished with an error), then exit;
with-statement semantics run __exit__ in both the normal and the error case. -/
def fromdirWith (r : fromdir) (body : ProcState → ProcState × Bool) (s : ProcState) :
    ProcState :=
  let es := fromdirEnter r s
  let bs := body es.2
  fromdirExit es.1 bs.1

/-! ### Lemmas about the line-folding transformation -/

lemma sub2_cons_ne (c : Char) (t : Str) (hc : c ≠ '\n') : sub2 (c :: t) = c :: sub2 t := by
  cases t with
  | nil => rfl
  | cons d t' =>
    show sub2 (c :: d :: t') = c :: sub2 (d :: t')
    rw [sub2]
    rw [if_neg]
    intro h
    exact hc h.1

lemma sub2_pair (t : Str) : sub2 ('\n' :: '\n' :: t) = '\x0B' :: sub2 t := by
  rw [sub2]
  rw [if_pos ⟨rfl, rfl⟩]

lemma sub2_noNl (t : Str) (h : '\n' ∉ t) : sub2 t = t := by
  induction t with
  | nil => rfl
  | cons c t' ih =>
    have hc : c ≠ '\n' := by
      intro e
      exact h (e ▸ List.mem_cons_self c t')
    rw [sub2_cons_ne c t' hc, ih (fun m => h (List.mem_cons_of_mem _ m))]

lemma sub2_append_noNl (a r : Str) (h : '\n' ∉ a) : sub2 (a ++ r) = a ++ sub2 r := by
  induction a with
  | nil => rfl
  | cons c a' ih =>
    have hc : c ≠ '\n' := by
      intro e
      exact h (e ▸ List.mem_cons_self c a')
    simp only [List.cons_append]
    rw [sub2_cons_ne _ _ hc, ih (fun m => h (List.mem_cons_of_mem _ m))]

lemma sub2_nl_cons (b : Str) (hb : '\n' ∉ b) : sub2 ('\n' :: b) = '\n' :: b := by
  cases b with
  | nil => rfl
  | cons d b' =>
    have hd : d ≠ '\n' := by
      intro e
      exact hb (e ▸ List.mem_cons_self d b')
    show sub2 ('\n' :: d :: b') = '\n' :: d :: b'
    rw [sub2]
    rw [if_neg]
    · rw [sub2_noNl (d :: b') hb]
    · intro h
      exact hd h.2

lemma sp_ne_nl (c : Char) : sp c ≠ '\n' := by
  unfold sp
  split
  · decide
  · assumption

lemma noNl_map_sp (t : Str) : '\n' ∉ t.map sp := by
  intro h
  obtain ⟨c, _, hc⟩ := List.mem_map.1 h
  exact sp_ne_nl c hc

lemma spMap_noNl (t : Str) (h : '\n' ∉ t) : t.map sp = t := by
  induction t with
  | nil => rfl
  | cons c t' ih =>
    have hc : c ≠ '\n' := by
      intro e
      exact h (e ▸ List.mem_cons_self c t')
    simp only [List.map_cons]
    rw [ih (fun m => h (List.mem_cons_of_mem _ m))]
    unfold sp
    rw [if_neg hc]

lemma vexpand_append (a b : Str) : vexpand (a ++ b) = vexpand a ++ vexpand b := by
  induction a with
  | nil => rfl
  | cons c a' ih =>
    show (if c = '\x0B' then ['\n', '\n'] else [c]) ++ vexpand (a' ++ b)
        = ((if c = '\x0B' then ['\n', '\n'] else [c]) ++ vexpand a') ++ vexpand b
    rw [ih, List.append_assoc]

lemma vexpand_noVt (a : Str) (h : '\x0B' ∉ a) : vexpand a = a := by
  induction a with
  | nil => rfl
  | cons c a' ih =>
    have hc : c ≠ '\x0B' := by
      intro e
      exact h (e ▸ List.mem_cons_self c a')
    simp only [vexpand]
    rw [if_neg hc, ih (fun m => h (List.mem_cons_of_mem _ m))]
    rfl

lemma sub2_vexpand (t : Str) (h : '\n' ∉ t) : sub2 (vexpand t) = t := by
  induction t with
  | nil => rfl
  | cons c t' ih =>
    have ht' : '\n' ∉ t' := fun m => h (List.mem_cons_of_mem _ m)
    by_cases hv : c = '\x0B'
    · subst hv
      show sub2 (('\n' :: '\n' :: []) ++ vexpand t') = _
      simp only [List.cons_append, List.nil_append]
      rw [sub2_pair, ih ht']
    · have hc : c ≠ '\n' := by
        intro e
        exact h (e ▸ List.mem_cons_self c t')
      show sub2 ((if c = '\x0B' then ['\n', '\n'] else [c]) ++ vexpand t') = _
      rw [if_neg hv]
      simp only [List.cons_append, List.nil_append]
      rw [sub2_cons_ne _ _ hc, ih ht']

lemma pySplit_shape (ch : Char) (s : Str) :
    ∃ h t, pySplit ch s = h :: t ∧ ch ∉ h := by
  induction s with
  | nil => exact ⟨[], [], rfl, by simp⟩
  | cons c rest ih =>
    by_cases hc : c = ch
    · refine ⟨[], pySplit ch rest, ?_, by simp⟩
      simp [pySplit, hc]
    · obtain ⟨h, t, he, hm⟩ := ih
      refine ⟨c :: h, t, ?_, ?_⟩
      · simp [pySplit, hc, he]
      · intro m
        rcases List.mem_cons.1 m with e | m2
        · exact hc e.symm
        · exact hm m2

/-! ### Claims about the Documentation views -/

/-- C7: the full (line-folded) view replaces each single newline with one space
while preserving each blank-line paragraph break; in particular the text
"Line one\nstill one.\n\nNew para." folds to "Line one still one.\n\nNew para.". -/
theorem claim_C7 :
    (∀ a b : Str, '\n' ∉ a → '\n' ∉ b → '\x0B' ∉ a → '\x0B' ∉ b →
        Documentation.full ⟨⟨a ++ '\n' :: b, false⟩, false⟩ = a ++ ' ' :: b
      ∧ Documentation.full ⟨⟨a ++ '\n' :: '\n' :: b, false⟩, false⟩ = a ++ '\n' :: '\n' :: b)
    ∧ Documentation.full ⟨⟨("Line one\nstill one.\n\nNew para.").toList, false⟩, false⟩
        = ("Line one still one.\n\nNew para.").toList := by
  constructor
  · intro a b hna hnb hva hvb
    constructor
    · show vexpand (List.map sp (sub2 (a ++ '\n' :: b))) = a ++ ' ' :: b
      rw [sub2_append_noNl a _ hna, sub2_nl_cons b hnb]
      rw [List.map_append, List.map_cons]
      rw [spMap_noNl a hna, spMap_noNl b hnb]
      have hsp : sp '\n' = ' ' := rfl
      rw [hsp]
      refine vexpand_noVt _ ?_
      intro m
      rcases List.mem_append.1 m with m1 | m2
      · exact hva m1
      · rcases List.mem_cons.1 m2 with e | m3
        · exact absurd e (by decide)
        · exact hvb m3
    · show vexpand (List.map sp (sub2 (a ++ '\n' :: '\n' :: b))) = a ++ '\n' :: '\n' :: b
      rw [sub2_append_noNl a _ hna, sub2_pair, sub2_noNl b hnb]
      rw [List.map_append, List.map_cons]
      rw [spMap_noNl a hna, spMap_noNl b hnb]
      have hsp : sp '\x0B' = '\x0B' := rfl
      rw [hsp]
      rw [vexpand_append, vexpand_noVt a hva]
      have hv : vexpand ('\x0B' :: b) = '\n' :: '\n' :: vexpand b := by
        show (if '\x0B' = '\x0B' then ['\n', '\n'] else ['\x0B']) ++ vexpand b
            = '\n' :: '\n' :: vexpand b
        rw [if_pos rfl]
        rfl
      rw [hv, vexpand_noVt b hvb]
  · decide

theorem claim_C7_witness :
    Documentation.full ⟨⟨['a', 'b'] ++ '\n' :: ['c', 'd'], false⟩, false⟩
      = ['a', 'b'] ++ ' ' :: ['c', 'd'] :=
  (claim_C7.1 ['a', 'b'] ['c', 'd'] (by decide) (by decide) (by decide) (by decide)).1

/-- C8: constructing a Documentation from an entity whose docstring is absent
yields the empty text (unicode exactly when decode was requested), the stored
decode attribute is False, both the first and the full view are empty, and the
result does not depend on the decode/repair collaborator at all. -/
theorem claim_C8 : ∀ (dec : Bool) (fix : Str → Str),
    (Documentation.fromObject none dec fix).raw.chars = []
    ∧ (Documentation.fromObject none dec fix).raw.uni = dec
    ∧ (Documentation.fromObject none dec fix).decode = false
    ∧ Documentation.first (Documentation.fromObject none dec fix) = []
    ∧ Documentation.full (Documentation.fromObject none dec fix) = [] := by
  intro dec fix
  exact ⟨rfl, rfl, rfl, rfl, rfl⟩

/-- C9: the full (line-folded) view is idempotent: folding the result of folding
any raw text gives the same string as folding it once. -/
theorem claim_C9 : ∀ (s : Str) (u1 d1 u2 d2 : Bool),
    Documentation.full ⟨⟨Documentation.full ⟨⟨s, u1⟩, d1⟩, u2⟩, d2⟩
      = Documentation.full ⟨⟨s, u1⟩, d1⟩ := by
  intro s _ _ _ _
  show vexpand (List.map sp (sub2 (vexpand (List.map sp (sub2 s))))) = _
  rw [sub2_vexpand _ (noNl_map_sp _), spMap_noNl _ (noNl_map_sp _)]
  rfl

/-- C10: for every raw string, including the empty one, the first-line view is
defined and contains no newline character. -/
theorem claim_C10 : ∀ (s : Str) (u d : Bool),
    '\n' ∉ Documentation.first ⟨⟨s, u⟩, d⟩ := by
  intro s u d
  obtain ⟨h, t, he, hm⟩ := pySplit_shape '\n' s
  simp only [Documentation.first, he]
  exact hm

/-! ### Lemmas about splitting, stripping and the cleandoc pipeline -/

lemma not_mem_cons_of {α : Type} {c a : α} {x : List α} (h1 : c ≠ a) (h2 : c ∉ x) :
    c ∉ a :: x := by
  intro m
  rcases List.mem_cons.1 m with e | m2
  · exact h1 e
  · exact h2 m2

lemma not_mem_append_of {α : Type} {c : α} {x y : List α} (h1 : c ∉ x) (h2 : c ∉ y) :
    c ∉ x ++ y := by
  intro m
  rcases List.mem_append.1 m with m1 | m2
  · exact h1 m1
  · exact h2 m2

lemma not_mem_replicate_of {α : Type} {c a : α} (k : Nat) (h : c ≠ a) :
    c ∉ List.replicate k a := by
  intro m
  exact h (List.eq_of_mem_replicate m)

lemma pySplit_ch_cons (ch : Char) (r : Str) : pySplit ch (ch :: r) = [] :: pySplit ch r := by
  simp [pySplit]

lemma pySplit_append (ch : Char) (a r : Str) (h : ch ∉ a) :
    pySplit ch (a ++ ch :: r) = a :: pySplit ch r := by
  induction a with
  | nil => exact pySplit_ch_cons ch r
  | cons c a' ih =>
    have hc : c ≠ ch := by
      intro e
      exact h (e ▸ List.mem_cons_self c a')
    have ih' := ih (fun m => h (List.mem_cons_of_mem _ m))
    simp only [List.cons_append]
    simp [pySplit, hc, ih']

lemma pySplit_noCh (ch : Char) (a : Str) (h : ch ∉ a) : pySplit ch a = [a] := by
  induction a with
  | nil => rfl
  | cons c a' ih =>
    have hc : c ≠ ch := by
      intro e
      exact h (e ▸ List.mem_cons_self c a')
    have ih' := ih (fun m => h (List.mem_cons_of_mem _ m))
    simp [pySplit, hc, ih']

lemma expandtabs_id (col : Nat) (s : Str) (h : '\t' ∉ s) : expandtabsAux col s = s := by
  induction s generalizing col with
  | nil => rfl
  | cons c rest ih =>
    have hc : c ≠ '\t' := by
      intro e
      exact h (e ▸ List.mem_cons_self c rest)
    have ih' : ∀ col2, expandtabsAux col2 rest = rest :=
      fun col2 => ih col2 (fun m => h (List.mem_cons_of_mem _ m))
    simp only [expandtabsAux]
    rw [if_neg hc]
    by_cases hnr : (c = '\n' || c = '\r') = true
    · rw [if_pos hnr, ih']
    · rw [if_neg hnr, ih']

lemma lstrip_spaces (k : Nat) (c : Str) :
    lstripPy (List.replicate k ' ' ++ c) = lstripPy c := by
  induction k with
  | zero => rfl
  | succ k ih =>
    show lstripPy (' ' :: (List.replicate k ' ' ++ c)) = lstripPy c
    rw [← ih]
    rfl

lemma um_blank (m : Option Nat) : updMargin m [] = m := rfl

lemma um_step (m : Option Nat) (k : Nat) (c : Str) (hl : lstripPy c = c) (hc : c ≠ []) :
    updMargin m (List.replicate k ' ' ++ c)
      = some (match m with | none => k | some v => min v k) := by
  have hlen : c.length ≠ 0 := by
    intro e
    exact hc (List.length_eq_zero.1 e)
  have harith : (List.replicate k ' ' ++ c).length - c.length = k := by
    rw [List.length_append, List.length_replicate]
    omega
  simp only [updMargin, lstrip_spaces, hl]
  rw [if_pos hlen]
  cases m with
  | none => rw [harith]
  | some v => rw [harith]

lemma drop_replicate (n : Nat) (c : Str) : (List.replicate n ' ' ++ c).drop n = c := by
  induction n with
  | zero => rfl
  | succ n ih =>
    show (' ' :: (List.replicate n ' ' ++ c)).drop (n + 1) = c
    rw [List.drop_succ_cons, ih]

lemma cleandocLines_eval (n : Nat) (c1 c2 : Str)
    (h1 : c1 ≠ []) (h2 : c2 ≠ []) (hl1 : lstripPy c1 = c1) (hl2 : lstripPy c2 = c2) :
    cleandocLines [[], List.replicate n ' ' ++ c1, List.replicate n ' ' ++ c2, [], []]
      = c1 ++ '\n' :: c2 := by
  have hE1 : c1.isEmpty = false := by
    cases c1 with
    | nil => exact absurd rfl h1
    | cons x t => rfl
  have hE2 : c2.isEmpty = false := by
    cases c2 with
    | nil => exact absurd rfl h2
    | cons x t => rfl
  have hm : (([[], List.replicate n ' ' ++ c1, List.replicate n ' ' ++ c2, [], []] :
        List Str).drop 1).foldl updMargin none = some n := by
    show ([List.replicate n ' ' ++ c1, List.replicate n ' ' ++ c2, [], []] :
        List Str).foldl updMargin none = some n
    rw [List.foldl_cons, um_step none n c1 hl1 h1]
    rw [List.foldl_cons, um_step (some n) n c2 hl2 h2]
    rw [List.foldl_cons, um_blank, List.foldl_cons, um_blank, List.foldl_nil]
    show some (min n n) = some n
    rw [min_self]
  simp only [cleandocLines, hm]
  simp only [List.map_cons, List.map_nil, drop_replicate, List.drop_nil]
  have hlstrip0 : lstripPy ([] : Str) = [] := rfl
  rw [hlstrip0]
  have hrev1 : ([[], c1, c2, [], []] : List Str).reverse = [[], [], c2, c1, []] := by
    simp
  rw [hrev1]
  have hdw1 : List.dropWhile (fun (l : Str) => l.isEmpty) ([[], [], c2, c1, []] : List Str)
      = [c2, c1, []] := by
    show List.dropWhile (fun (l : Str) => l.isEmpty) ([c2, c1, []] : List Str) = [c2, c1, []]
    rw [List.dropWhile_cons]
    simp only [hE2, Bool.false_eq_true, if_false]
  rw [hdw1]
  have hrev2 : ([c2, c1, []] : List Str).reverse = [[], c1, c2] := by simp
  rw [hrev2]
  have hdw2 : List.dropWhile (fun (l : Str) => l.isEmpty) ([[], c1, c2] : List Str)
      = [c1, c2] := by
    show List.dropWhile (fun (l : Str) => l.isEmpty) ([c1, c2] : List Str) = [c1, c2]
    rw [List.dropWhile_cons]
    simp only [hE1, Bool.false_eq_true, if_false]
  rw [hdw2]
  show c1 ++ ['\n'] ++ c2 = c1 ++ '\n' :: c2
  rw [List.append_assoc]
  rfl

/-- C6: constructing a Documentation from a uniformly indented docstring removes
exactly the common indentation from every line and trims the leading and trailing
blank lines: for every indentation width n and tab-free, newline-free, non-blank
line bodies c1 and c2 that carry no extra leading whitespace, the input
"\n" ++ n spaces ++ c1 ++ "\n" ++ n spaces ++ c2 ++ "\n\n" cleans to
c1 ++ "\n" ++ c2; instantiated below at the spec's example
"\n    line one\n    line two\n\n", which cleans to "line one\nline two". -/
theorem claim_C6 : ∀ (n : Nat) (c1 c2 : Str) (u : Bool) (fix : Str → Str),
    c1 ≠ [] → c2 ≠ [] → lstripPy c1 = c1 → lstripPy c2 = c2 →
    '\n' ∉ c1 → '\n' ∉ c2 → '\t' ∉ c1 → '\t' ∉ c2 →
    (Documentation.fromString
        ⟨'\n' :: ((List.replicate n ' ' ++ c1) ++ '\n' ::
          ((List.replicate n ' ' ++ c2) ++ ['\n', '\n'])), u⟩
        false fix).raw.chars
      = c1 ++ '\n' :: c2 := by
  intro n c1 c2 u fix h1 h2 hl1 hl2 hn1 hn2 ht1 ht2
  have hA_nl : '\n' ∉ List.replicate n ' ' ++ c1 :=
    not_mem_append_of (not_mem_replicate_of n (by decide)) hn1
  have hB_nl : '\n' ∉ List.replicate n ' ' ++ c2 :=
    not_mem_append_of (not_mem_replicate_of n (by decide)) hn2
  have hT : '\t' ∉ ('\n' :: ((List.replicate n ' ' ++ c1) ++ '\n' ::
      ((List.replicate n ' ' ++ c2) ++ ['\n', '\n']))) :=
    not_mem_cons_of (by decide)
      (not_mem_append_of (not_mem_append_of (not_mem_replicate_of n (by decide)) ht1)
        (not_mem_cons_of (by decide)
          (not_mem_append_of
            (not_mem_append_of (not_mem_replicate_of n (by decide)) ht2)
            (by decide))))
  have hfs : ∀ (s : PyS), (Documentation.fromString s false fix).raw.chars
      = cleandocChars s.chars := by
    intro s
    simp only [Documentation.fromString]
    rw [if_pos (Or.inl trivial)]
    rfl
  rw [hfs]
  show cleandocLines (pySplit '\n' (expandtabsAux 0 ('\n' :: ((List.replicate n ' ' ++ c1)
      ++ '\n' :: ((List.replicate n ' ' ++ c2) ++ ['\n', '\n']))))) = c1 ++ '\n' :: c2
  rw [expandtabs_id 0 _ hT]
  rw [pySplit_ch_cons]
  rw [pySplit_append '\n' _ _ hA_nl]
  rw [pySplit_append '\n' _ _ hB_nl]
  have hs1 : pySplit '\n' (['\n'] : Str) = [[], []] := by decide
  rw [hs1]
  exact cleandocLines_eval n c1 c2 h1 h2 hl1 hl2

theorem claim_C6_witness :
    (Documentation.fromString
        ⟨'\n' :: ((List.replicate 4 ' ' ++ ("line one").toList) ++ '\n' ::
          ((List.replicate 4 ' ' ++ ("line two").toList) ++ ['\n', '\n'])), false⟩
        false (fun s => s)).raw.chars = ("line one\nline two").toList :=
  (claim_C6 4 ("line one").toList ("line two").toList false (fun s => s)
    (by decide) (by decide) (by decide) (by decide)
    (by decide) (by decide) (by decide) (by decide)).trans (by decide)

/-! ### Claims about fromdir construction, call and scoped activation -/

/-- C1: during construction the existing-regular-file check and the collapse to
the containing directory are applied to the accumulated path after every fragment
join, not only once at the end; and, concretely, when two fragments in a row each
resolve to an existing file, each collapse replaces the accumulated path by the
containing directory, so only the final containing directory survives in the
stored base path (the docstring's example with __init__.py and tx.py). -/
theorem claim_C1 :
    (∀ (eu : Str → Str) (fs : Str → Bool) (cwd : Str) (ps : List Str) (c : Str),
      (fromdirInit eu fs cwd (ps ++ [c])).path
        = (if fs (abspath cwd (pjoin2 (fromdirInit eu fs cwd ps).path (eu c)))
           then pjoin2 (dirname (abspath cwd
                  (abspath cwd (pjoin2 (fromdirInit eu fs cwd ps).path (eu c))))) []
           else abspath cwd (pjoin2 (fromdirInit eu fs cwd ps).path (eu c))))
    ∧ (fromdirInit (fun s => s)
        (fun p => p == ("/home/cory/src/Codado/codado/__init__.py").toList
          || p == ("/home/cory/src/Codado/codado/tx.py").toList)
        (("/").toList)
        [("/home/cory/src/Codado/codado/__init__.py").toList, ("tx.py").toList]).path
        = ("/home/cory/src/Codado/codado/").toList
    ∧ fromdirCall
        (fromdirInit (fun s => s)
          (fun p => p == ("/home/cory/src/Codado/codado/__init__.py").toList
            || p == ("/home/cory/src/Codado/codado/tx.py").toList)
          (("/").toList)
          [("/home/cory/src/Codado/codado/__init__.py").toList, ("tx.py").toList])
        [("py.py").toList]
        = ("/home/cory/src/Codado/codado/py.py").toList := by
  refine ⟨?_, by decide, by decide⟩
  intro eu fs cwd ps c
  show (List.foldl (fromdirStep eu fs cwd) [] (ps ++ [c])) = _
  rw [List.foldl_append]
  rfl

/-- C3: after a scoped activation, whether the body finished normally or with an
error, and whatever working-directory changes the body itself made, the process
working directory equals the directory recorded at scope entry. -/
theorem claim_C3 : ∀ (r : fromdir) (body : ProcState → ProcState × Bool) (s : ProcState),
    (fromdirWith r body s).cwd = s.cwd := by
  intro r body s
  rfl

/-- C5: calling a resolver returns exactly the standard path-join of the stored
base path with each argument in order (zero arguments return the base path, and
each argument is folded in by one posixpath.join step); the call performs no
normalization, as the concrete ".." example shows, and its embedding takes no
filesystem or process-state parameter at all. -/
theorem claim_C5 :
    (∀ r : fromdir, fromdirCall r [] = r.path)
    ∧ (∀ (r : fromdir) (x : Str) (xs : List Str),
        fromdirCall r (x :: xs) = fromdirCall ⟨pjoin2 r.path x⟩ xs)
    ∧ fromdirCall ⟨("/a").toList⟩ [("..").toList, ("b.txt").toList]
        = ("/a/../b.txt").toList :=
  ⟨fun _ => rfl, fun _ _ _ => rfl, by decide⟩

/-! ### Absoluteness lemmas for the constructed base path -/

lemma exists_slash_cons (p : Str) (h : isabs p = true) : ∃ t, p = '/' :: t := by
  cases p with
  | nil => exact absurd h (by decide)
  | cons c t =>
    have h' : (c == '/') = true := h
    exact ⟨t, by rw [eq_of_beq h']⟩

lemma isabs_pjoin2 (a b : Str) (ha : isabs a = true) : isabs (pjoin2 a b) = true := by
  obtain ⟨t, rfl⟩ := exists_slash_cons a ha
  unfold pjoin2
  split_ifs with h1 h2
  · exact h1
  · rfl
  · rfl

lemma repl_slash_ne_nil (k : Nat) (J : Str) (hk : k ≠ 0) :
    List.replicate k '/' ++ J ≠ [] := by
  simp [hk]

lemma repl_slash_abs (k : Nat) (J : Str) (hk : k ≠ 0) :
    isabs (List.replicate k '/' ++ J) = true := by
  cases k with
  | zero => exact absurd rfl hk
  | succ m => rfl

lemma normpath_ne_nil_eq (p : Str) (h : p ≠ []) :
    normpath p
      = (if (List.replicate
              (if isabs p then
                (if startsSlash2 p = true ∧ startsSlash3 p = false then 2 else 1) else 0) '/'
            ++ joinWith ['/'] ((pySplit '/' p).foldl (normStep (isabs p)) [])) = []
         then dot
         else List.replicate
              (if isabs p then
                (if startsSlash2 p = true ∧ startsSlash3 p = false then 2 else 1) else 0) '/'
            ++ joinWith ['/'] ((pySplit '/' p).foldl (normStep (isabs p)) [])) := by
  unfold normpath
  rw [if_neg h]

lemma isabs_normpath (p : Str) (h : isabs p = true) : isabs (normpath p) = true := by
  have hne : p ≠ [] := by
    intro e
    rw [e] at h
    exact absurd h (by decide)
  rw [normpath_ne_nil_eq p hne]
  simp only [h, if_true]
  by_cases hs : startsSlash2 p = true ∧ startsSlash3 p = false
  · rw [if_pos hs]
    rw [if_neg (repl_slash_ne_nil 2 _ (by decide))]
    exact repl_slash_abs 2 _ (by decide)
  · rw [if_neg hs]
    rw [if_neg (repl_slash_ne_nil 1 _ (by decide))]
    exact repl_slash_abs 1 _ (by decide)

lemma isabs_abspath (cwd p : Str) (hc : isabs cwd = true) :
    isabs (abspath cwd p) = true := by
  unfold abspath
  by_cases hp : isabs p = true
  · rw [if_pos hp]
    exact isabs_normpath p hp
  · rw [if_neg hp]
    exact isabs_normpath _ (isabs_pjoin2 cwd p hc)

lemma abs_of_prefix {r s : Str} (hne : r ≠ []) (hpre : ∃ u, r ++ u = s)
    (hs : isabs s = true) : isabs r = true := by
  obtain ⟨u, rfl⟩ := hpre
  cases r with
  | nil => exact absurd rfl hne
  | cons x xs => exact hs

lemma dropWhile_sfx {α : Type} (q : α → Bool) (l : List α) :
    ∃ u, u ++ l.dropWhile q = l := by
  induction l with
  | nil => exact ⟨[], rfl⟩
  | cons a l ih =>
    by_cases hq : q a = true
    · obtain ⟨u, hu⟩ := ih
      refine ⟨a :: u, ?_⟩
      rw [List.dropWhile_cons, if_pos hq, List.cons_append, hu]
    · refine ⟨[], ?_⟩
      rw [List.dropWhile_cons, if_neg hq, List.nil_append]

lemma all_eq_replicate {α : Type} (a : α) (l : List α) (h : ∀ c ∈ l, c = a) :
    l = List.replicate l.length a := by
  induction l with
  | nil => rfl
  | cons x xs ih =>
    have hx : x = a := h x (List.mem_cons_self x xs)
    have ih' := ih (fun c m => h c (List.mem_cons_of_mem _ m))
    rw [List.length_cons, List.replicate_succ, ← ih', hx]

lemma rstrip_abs (s : Str) (ha : isabs s = true)
    (hex : s ≠ List.replicate s.length '/') : isabs (rstripSlashes s) = true := by
  have hexists : ∃ c ∈ s, ¬(c = '/') := by
    by_contra hall
    push_neg at hall
    exact hex (all_eq_replicate '/' s hall)
  have hrne : s.reverse.dropWhile (fun c => c == '/') ≠ [] := by
    intro e
    have hall := List.dropWhile_eq_nil_iff.1 e
    obtain ⟨c, hcmem, hcne⟩ := hexists
    exact hcne (eq_of_beq (hall c (List.mem_reverse.2 hcmem)))
  obtain ⟨u, hu⟩ := dropWhile_sfx (fun c => c == '/') s.reverse
  have hs2 : (s.reverse.dropWhile (fun c => c == '/')).reverse ++ u.reverse = s := by
    have := congrArg List.reverse hu
    rw [List.reverse_append, List.reverse_reverse] at this
    exact this
  have hrne' : (s.reverse.dropWhile (fun c => c == '/')).reverse ≠ [] := by
    intro e
    apply hrne
    rw [← List.reverse_reverse (s.reverse.dropWhile (fun c => c == '/')), e]
    rfl
  exact abs_of_prefix hrne' ⟨u.reverse, hs2⟩ ha

lemma hul_abs (t : Str) : ∃ hd, headUpToLastSlash ('/' :: t) = '/' :: hd := by
  by_cases ht : t.contains '/' = true
  · refine ⟨headUpToLastSlash t, ?_⟩
    show (if t.contains '/' then '/' :: headUpToLastSlash t
          else if '/' = '/' then ['/'] else []) = '/' :: headUpToLastSlash t
    rw [if_pos ht]
  · refine ⟨[], ?_⟩
    show (if t.contains '/' then '/' :: headUpToLastSlash t
          else if '/' = '/' then ['/'] else []) = ['/']
    rw [if_neg ht, if_pos rfl]

lemma isabs_dirname (y : Str) (h : isabs y = true) : isabs (dirname y) = true := by
  obtain ⟨t, rfl⟩ := exists_slash_cons y h
  obtain ⟨hd, hh⟩ := hul_abs t
  unfold dirname
  rw [hh]
  by_cases hcase : ('/' :: hd = ([] : Str)
      ∨ '/' :: hd = List.replicate ('/' :: hd).length '/')
  · rw [if_pos hcase]
    rfl
  · rw [if_neg hcase]
    push_neg at hcase
    exact rstrip_abs ('/' :: hd) rfl hcase.2

lemma isabs_sibpath (cwd p s : Str) (hc : isabs cwd = true) :
    isabs (sibpath cwd p s) = true :=
  isabs_pjoin2 _ s (isabs_dirname _ (isabs_abspath cwd p hc))

lemma isabs_fromdirStep (eu : Str → Str) (fs : Str → Bool) (cwd : Str)
    (hc : isabs cwd = true) (path cur : Str) :
    isabs (fromdirStep eu fs cwd path cur) = true := by
  unfold fromdirStep
  by_cases hf : fs (abspath cwd (pjoin2 path (eu cur))) = true
  · rw [if_pos hf]
    exact isabs_sibpath cwd _ [] hc
  · rw [if_neg hf]
    exact isabs_abspath cwd _ hc

lemma isabs_foldl_steps (eu : Str → Str) (fs : Str → Bool) (cwd : Str)
    (hc : isabs cwd = true) (l : List Str) (acc : Str) (hacc : isabs acc = true) :
    isabs (l.foldl (fromdirStep eu fs cwd) acc) = true := by
  induction l generalizing acc with
  | nil => exact hacc
  | cons x l ih =>
    rw [List.foldl_cons]
    exact ih _ (isabs_fromdirStep eu fs cwd hc acc x)

/-- C4 counterexample: a resolver built from the empty fragment sequence stores
the empty string, which is not an absolute path; so the invariant does not hold
for every constructed instance. -/
theorem claim_C4_counterexample :
    (fromdirInit (fun s => s) (fun _ => false) (("/").toList) []).path = []
    ∧ isabs (fromdirInit (fun s => s) (fun _ => false) (("/").toList) []).path = false := by
  exact ⟨rfl, rfl⟩

/-- C4 (amended): for every nonempty sequence of fragments, and with the process
working directory absolute as os.getcwd guarantees, the stored basePath after
construction is an absolute path.  The original claim also asserted this for the
empty fragment sequence, where the code instead stores the empty string. -/
theorem claim_C4 (eu : Str → Str) (fs : Str → Bool) (cwd : Str) (ps : List Str)
    (hc : isabs cwd = true) (hne : ps ≠ []) :
    isabs (fromdirInit eu fs cwd ps).path = true := by
  cases ps with
  | nil => exact absurd rfl hne
  | cons x l =>
    show isabs (List.foldl (fromdirStep eu fs cwd) [] (x :: l)) = true
    rw [List.foldl_cons]
    exact isabs_foldl_steps eu fs cwd hc l _ (isabs_fromdirStep eu fs cwd hc [] x)

theorem claim_C4_witness :
    isabs (("/").toList) = true
    ∧ ([("etc").toList, ("passwd").toList] : List Str) ≠ []
    ∧ isabs (fromdirInit (fun s => s) (fun _ => false) (("/").toList)
        [("etc").toList, ("passwd").toList]).path = true :=
  ⟨by decide, by decide,
    claim_C4 (fun s => s) (fun _ => false) (("/").toList)
      [("etc").toList, ("passwd").toList] (by decide) (by decide)⟩

/-! ### The normpath component pipeline: splitting, joining and the filter loop -/

lemma pySplit_ne_nil (ch : Char) (s : Str) : pySplit ch s ≠ [] := by
  obtain ⟨h, t, he, _⟩ := pySplit_shape ch s
  rw [he]
  exact List.cons_ne_nil h t

lemma pySplit_mem_noCh (ch : Char) (s : Str) : ∀ c ∈ pySplit ch s, ch ∉ c := by
  induction s with
  | nil =>
    intro c hc
    have hc' : c ∈ [([] : Str)] := hc
    rw [List.mem_singleton.1 hc']
    simp
  | cons a s ih =>
    intro c hc
    by_cases ha : a = ch
    · have he : pySplit ch (a :: s) = [] :: pySplit ch s := by
        simp [pySplit, ha]
      rw [he] at hc
      rcases List.mem_cons.1 hc with e | m
      · rw [e]
        simp
      · exact ih c m
    · obtain ⟨g, gs, hg⟩ : ∃ g gs, pySplit ch s = g :: gs := by
        obtain ⟨g, gs, he2, _⟩ := pySplit_shape ch s
        exact ⟨g, gs, he2⟩
      have he : pySplit ch (a :: s) = (a :: g) :: gs := by
        simp [pySplit, ha, hg]
      rw [he] at hc
      rcases List.mem_cons.1 hc with e | m
      · rw [e]
        intro hm
        rcases List.mem_cons.1 hm with e2 | m2
        · exact ha e2.symm
        · exact ih g (by rw [hg]; exact List.mem_cons_self g gs) m2
      · exact ih c (by rw [hg]; exact List.mem_cons_of_mem g m)

lemma split_joinWith : ∀ (comps : List Str), comps ≠ [] → (∀ c ∈ comps, '/' ∉ c) →
    pySplit '/' (joinWith ['/'] comps) = comps
  | [], h, _ => absurd rfl h
  | [a], _, hns => by
    show pySplit '/' a = [a]
    exact pySplit_noCh '/' a (hns a (List.mem_singleton.2 rfl))
  | a :: b :: rest, _, hns => by
    show pySplit '/' (a ++ ['/'] ++ joinWith ['/'] (b :: rest)) = a :: b :: rest
    rw [List.append_assoc]
    show pySplit '/' (a ++ '/' :: joinWith ['/'] (b :: rest)) = a :: b :: rest
    rw [pySplit_append '/' _ _ (hns a (List.mem_cons_self a _))]
    rw [split_joinWith (b :: rest) (List.cons_ne_nil b rest)
      (fun c m => hns c (List.mem_cons_of_mem a m))]

lemma pySplit_repl_slash (k : Nat) (r : Str) :
    pySplit '/' (List.replicate k '/' ++ r) = List.replicate k [] ++ pySplit '/' r := by
  induction k with
  | zero => rfl
  | succ k ih =>
    show pySplit '/' ('/' :: (List.replicate k '/' ++ r))
        = [] :: (List.replicate k [] ++ pySplit '/' r)
    rw [pySplit_ch_cons, ih]

lemma normStep_nil_comp (abs : Bool) (acc : List Str) : normStep abs acc [] = acc := by
  unfold normStep
  rw [if_pos (Or.inl rfl)]

lemma foldl_normStep_repl_nil (abs : Bool) (k : Nat) (l : List Str) (acc : List Str) :
    (List.replicate k [] ++ l).foldl (normStep abs) acc = l.foldl (normStep abs) acc := by
  induction k generalizing acc with
  | zero => rfl
  | succ k ih =>
    show (([] : Str) :: (List.replicate k [] ++ l)).foldl (normStep abs) acc
        = l.foldl (normStep abs) acc
    rw [List.foldl_cons, normStep_nil_comp]
    exact ih acc

lemma normStep_mem (abs : Bool) (acc : List Str) (comp : Str)
    (hacc : ∀ c ∈ acc, c ≠ [] ∧ c ≠ dot ∧ '/' ∉ c) (hcomp : '/' ∉ comp) :
    ∀ c ∈ normStep abs acc comp, c ≠ [] ∧ c ≠ dot ∧ '/' ∉ c := by
  unfold normStep
  split_ifs with h1 h2 h3
  · exact hacc
  · intro c hc
    rcases List.mem_append.1 hc with m | m
    · exact hacc c m
    · rw [List.mem_singleton.1 m]
      push_neg at h1
      exact ⟨h1.1, h1.2, hcomp⟩
  · intro c hc
    exact hacc c ((List.dropLast_sublist acc).subset hc)
  · exact hacc

lemma foldl_normStep_mem (abs : Bool) (comps : List Str) (acc : List Str)
    (hacc : ∀ c ∈ acc, c ≠ [] ∧ c ≠ dot ∧ '/' ∉ c) (hcs : ∀ c ∈ comps, '/' ∉ c) :
    ∀ c ∈ comps.foldl (normStep abs) acc, c ≠ [] ∧ c ≠ dot ∧ '/' ∉ c := by
  induction comps generalizing acc with
  | nil => exact hacc
  | cons x l ih =>
    rw [List.foldl_cons]
    exact ih _ (normStep_mem abs acc x hacc (hcs x (List.mem_cons_self x l)))
      (fun c m => hcs c (List.mem_cons_of_mem x m))

lemma normStep_noDD (acc : List Str) (comp : Str) (hacc : ∀ c ∈ acc, c ≠ dd) :
    ∀ c ∈ normStep true acc comp, c ≠ dd := by
  unfold normStep
  split_ifs with h1 h2 h3
  · exact hacc
  · intro c hc
    rcases List.mem_append.1 hc with m | m
    · exact hacc c m
    · rw [List.mem_singleton.1 m]
      rcases h2 with hx | hx | hx
      · exact hx
      · exact absurd hx.1 (by decide)
      · exact absurd rfl (hacc dd (List.mem_of_getLast?_eq_some hx.2))
  · intro c hc
    exact hacc c ((List.dropLast_sublist acc).subset hc)
  · exact hacc

lemma foldl_normStep_noDD (comps : List Str) (acc : List Str)
    (hacc : ∀ c ∈ acc, c ≠ dd) :
    ∀ c ∈ comps.foldl (normStep true) acc, c ≠ dd := by
  induction comps generalizing acc with
  | nil => exact hacc
  | cons x l ih =>
    rw [List.foldl_cons]
    exact ih _ (normStep_noDD acc x hacc)

lemma normStep_ddPre (acc : List Str) (comp : Str)
    (h : ∃ j rest, acc = List.replicate j dd ++ rest ∧ ∀ c ∈ rest, c ≠ dd) :
    ∃ j rest, normStep false acc comp = List.replicate j dd ++ rest
      ∧ ∀ c ∈ rest, c ≠ dd := by
  obtain ⟨j, rest, rfl, hrest⟩ := h
  unfold normStep
  split_ifs with h1 h2 h3
  · exact ⟨j, rest, rfl, hrest⟩
  · by_cases hc : comp = dd
    · subst hc
      rcases h2 with hx | hx | hx
      · exact absurd rfl hx
      · refine ⟨1, [], ?_, by simp⟩
        rw [hx.2]
        rfl
      · by_cases hr : rest = []
        · subst hr
          refine ⟨j + 1, [], ?_, by simp⟩
          rw [List.append_nil, List.append_nil]
          exact (List.replicate_succ' j dd).symm
        · exfalso
          have hg : (List.replicate j dd ++ rest).getLast? = rest.getLast? :=
            List.getLast?_append_of_ne_nil _ hr
          have hsome : rest.getLast? = some dd := by
            rw [← hg]
            exact hx.2
          exact hrest dd (List.mem_of_getLast?_eq_some hsome) rfl
    · refine ⟨j, rest ++ [comp], by rw [List.append_assoc], ?_⟩
      intro c m
      rcases List.mem_append.1 m with m1 | m2
      · exact hrest c m1
      · rw [List.mem_singleton.1 m2]
        exact hc
  · by_cases hr : rest = []
    · subst hr
      rw [List.append_nil]
      cases j with
      | zero => exact ⟨0, [], rfl, by simp⟩
      | succ m =>
        refine ⟨m, [], ?_, by simp⟩
        rw [List.replicate_succ' m dd, List.dropLast_concat, List.append_nil]
    · obtain ⟨b, rest', rfl⟩ : ∃ b rest', rest = b :: rest' := by
        cases rest with
        | nil => exact absurd rfl hr
        | cons b r' => exact ⟨b, r', rfl⟩
      refine ⟨j, (b :: rest').dropLast, List.dropLast_append_cons, ?_⟩
      intro c m
      exact hrest c ((List.dropLast_sublist _).subset m)
  · exact ⟨j, rest, rfl, hrest⟩

lemma foldl_normStep_ddPre (comps : List Str) (acc : List Str)
    (h : ∃ j rest, acc = List.replicate j dd ++ rest ∧ ∀ c ∈ rest, c ≠ dd) :
    ∃ j rest, comps.foldl (normStep false) acc = List.replicate j dd ++ rest
      ∧ ∀ c ∈ rest, c ≠ dd := by
  induction comps generalizing acc with
  | nil => exact h
  | cons x l ih =>
    rw [List.foldl_cons]
    exact ih _ (normStep_ddPre acc x h)

lemma foldl_normStep_keep (abs : Bool) : ∀ (l : List Str) (acc : List Str),
    (∀ c ∈ l, c ≠ [] ∧ c ≠ dot ∧ c ≠ dd) → l.foldl (normStep abs) acc = acc ++ l := by
  intro l
  induction l with
  | nil =>
    intro acc _
    rw [List.foldl_nil, List.append_nil]
  | cons x l ih =>
    intro acc hgood
    have hx := hgood x (List.mem_cons_self x l)
    have hn1 : ¬(x = [] ∨ x = dot) := by
      intro hor
      rcases hor with e | e
      · exact hx.1 e
      · exact hx.2.1 e
    have hstep : normStep abs acc x = acc ++ [x] := by
      unfold normStep
      rw [if_neg hn1, if_pos (Or.inl hx.2.2)]
    rw [List.foldl_cons, hstep, ih _ (fun c m => hgood c (List.mem_cons_of_mem x m))]
    rw [List.append_assoc]
    rfl

lemma getLast?_replicate_dd (i : Nat) (hi : i ≠ 0) :
    (List.replicate i dd).getLast? = some dd := by
  cases i with
  | zero => exact absurd rfl hi
  | succ m =>
    rw [List.replicate_succ' m dd]
    exact List.getLast?_concat _

lemma foldl_dd_run : ∀ (j i : Nat),
    (List.replicate j dd).foldl (normStep false) (List.replicate i dd)
      = List.replicate (i + j) dd := by
  intro j
  induction j with
  | zero =>
    intro i
    rw [Nat.add_zero]
    rfl
  | succ m ih =>
    intro i
    show ((dd :: List.replicate m dd).foldl (normStep false) (List.replicate i dd))
        = List.replicate (i + (m + 1)) dd
    have hcond : ¬dd = dd ∨ ((false = false ∧ List.replicate i dd = ([] : List Str))
        ∨ (List.replicate i dd ≠ ([] : List Str)
            ∧ (List.replicate i dd).getLast? = some dd)) := by
      by_cases hi : i = 0
      · subst hi
        exact Or.inr (Or.inl ⟨rfl, rfl⟩)
      · refine Or.inr (Or.inr ⟨?_, getLast?_replicate_dd i hi⟩)
        simp [hi]
    have hstep : normStep false (List.replicate i dd) dd = List.replicate (i + 1) dd := by
      unfold normStep
      rw [if_neg (by decide : ¬((dd : Str) = [] ∨ (dd : Str) = dot)), if_pos hcond]
      exact (List.replicate_succ' i dd).symm
    rw [List.foldl_cons, hstep, ih (i + 1)]
    congr 1
    omega

lemma joinWith_cons_ex (c : Str) (l : List Str) :
    ∃ tail, joinWith ['/'] (c :: l) = c ++ tail := by
  cases l with
  | nil => exact ⟨[], (List.append_nil c).symm⟩
  | cons b rest =>
    refine ⟨['/'] ++ joinWith ['/'] (b :: rest), ?_⟩
    show c ++ ['/'] ++ joinWith ['/'] (b :: rest) = c ++ (['/'] ++ joinWith ['/'] (b :: rest))
    rw [List.append_assoc]

lemma normpath_out (k : Nat) (nc : List Str) (abs : Bool)
    (hgood : ∀ c ∈ nc, c ≠ [] ∧ c ≠ dot ∧ '/' ∉ c)
    (hfold : nc.foldl (normStep abs) [] = nc)
    (habs1 : abs = true → k = 1 ∨ k = 2)
    (habs0 : abs = false → k = 0)
    (hne : List.replicate k '/' ++ joinWith ['/'] nc ≠ []) :
    normpath (List.replicate k '/' ++ joinWith ['/'] nc)
      = List.replicate k '/' ++ joinWith ['/'] nc := by
  cases nc with
  | nil =>
    have hk0 : k ≠ 0 := by
      intro e
      subst e
      exact hne rfl
    cases abs with
    | false => exact absurd (habs0 rfl) hk0
    | true =>
      rcases habs1 rfl with rfl | rfl
      · decide
      · decide
  | cons c0 nc' =>
    obtain ⟨hc0ne, _, hc0ns⟩ := hgood c0 (List.mem_cons_self c0 nc')
    obtain ⟨x, xs, rfl⟩ : ∃ x xs, c0 = x :: xs := by
      cases c0 with
      | nil => exact absurd rfl hc0ne
      | cons x xs => exact ⟨x, xs, rfl⟩
    have hx : ¬(x = '/') := by
      intro e
      exact hc0ns (e ▸ List.mem_cons_self x xs)
    have hxb : (x == '/') = false := beq_eq_false_iff_ne.2 hx
    obtain ⟨tail, hJ⟩ := joinWith_cons_ex (x :: xs) nc'
    have hsplitJ : pySplit '/' (joinWith ['/'] ((x :: xs) :: nc')) = (x :: xs) :: nc' :=
      split_joinWith _ (List.cons_ne_nil _ _) (fun c m => (hgood c m).2.2)
    cases abs with
    | false =>
      have hk0 : k = 0 := habs0 rfl
      subst hk0
      show normpath (joinWith ['/'] ((x :: xs) :: nc'))
          = List.replicate 0 '/' ++ joinWith ['/'] ((x :: xs) :: nc')
      have hJne : joinWith ['/'] ((x :: xs) :: nc') ≠ [] := by
        rw [hJ]
        exact List.cons_ne_nil x (xs ++ tail)
      rw [normpath_ne_nil_eq _ hJne]
      have hJabs : isabs (joinWith ['/'] ((x :: xs) :: nc')) = false := by
        rw [hJ]
        exact hxb
      rw [if_neg (show ¬(isabs (joinWith ['/'] ((x :: xs) :: nc')) = true) by
        rw [hJabs]; decide)]
      rw [hJabs, hsplitJ, hfold]
      rw [if_neg (show ¬(List.replicate 0 '/' ++ joinWith ['/'] ((x :: xs) :: nc') = [])
        from hJne)]
    | true =>
      rcases habs1 rfl with rfl | rfl
      · show normpath ('/' :: joinWith ['/'] ((x :: xs) :: nc'))
            = List.replicate 1 '/' ++ joinWith ['/'] ((x :: xs) :: nc')
        rw [normpath_ne_nil_eq _ (List.cons_ne_nil _ _)]
        have habsq : isabs ('/' :: joinWith ['/'] ((x :: xs) :: nc')) = true := rfl
        rw [if_pos habsq]
        have hs2 : startsSlash2 ('/' :: joinWith ['/'] ((x :: xs) :: nc')) = false := by
          rw [hJ]
          show ((('/' : Char) == '/') && (x == '/')) = false
          rw [hxb, Bool.and_false]
        rw [if_neg (show ¬(startsSlash2 ('/' :: joinWith ['/'] ((x :: xs) :: nc')) = true
            ∧ startsSlash3 ('/' :: joinWith ['/'] ((x :: xs) :: nc')) = false) by
          intro hand
          rw [hs2] at hand
          exact absurd hand.1 (by decide))]
        rw [habsq, pySplit_ch_cons, hsplitJ]
        rw [List.foldl_cons, normStep_nil_comp, hfold]
        rw [if_neg (show ¬(List.replicate 1 '/' ++ joinWith ['/'] ((x :: xs) :: nc') = [])
          from List.cons_ne_nil _ _)]
      · show normpath ('/' :: '/' :: joinWith ['/'] ((x :: xs) :: nc'))
            = List.replicate 2 '/' ++ joinWith ['/'] ((x :: xs) :: nc')
        rw [normpath_ne_nil_eq _ (List.cons_ne_nil _ _)]
        have habsq : isabs ('/' :: '/' :: joinWith ['/'] ((x :: xs) :: nc')) = true := rfl
        rw [if_pos habsq]
        have hs3 : startsSlash3 ('/' :: '/' :: joinWith ['/'] ((x :: xs) :: nc')) = false := by
          rw [hJ]
          show ((('/' : Char) == '/') && (('/' : Char) == '/') && (x == '/')) = false
          rw [hxb, Bool.and_false]
        rw [if_pos (show startsSlash2 ('/' :: '/' :: joinWith ['/'] ((x :: xs) :: nc')) = true
            ∧ startsSlash3 ('/' :: '/' :: joinWith ['/'] ((x :: xs) :: nc')) = false
          from ⟨rfl, hs3⟩)]
        rw [habsq, pySplit_ch_cons, pySplit_ch_cons, hsplitJ]
        rw [List.foldl_cons, normStep_nil_comp, List.foldl_cons, normStep_nil_comp, hfold]
        rw [if_neg (show ¬(List.replicate 2 '/' ++ joinWith ['/'] ((x :: xs) :: nc') = [])
          from List.cons_ne_nil _ _)]

lemma normpath_idem (p : Str) : normpath (normpath p) = normpath p := by
  by_cases hp : p = []
  · subst hp
    decide
  · rw [normpath_ne_nil_eq p hp]
    have hgoodAll : ∀ (b : Bool), ∀ c ∈ (pySplit '/' p).foldl (normStep b) [],
        c ≠ [] ∧ c ≠ dot ∧ '/' ∉ c :=
      fun b => foldl_normStep_mem b (pySplit '/' p) [] (by simp) (pySplit_mem_noCh '/' p)
    by_cases habs : isabs p = true
    · -- absolute path: the filtered components contain no dot-dot
      rw [if_pos habs, habs]
      have hdd : ∀ c ∈ (pySplit '/' p).foldl (normStep true) [], c ≠ dd :=
        foldl_normStep_noDD (pySplit '/' p) [] (by simp)
      have hfold : ((pySplit '/' p).foldl (normStep true) []).foldl (normStep true) []
          = (pySplit '/' p).foldl (normStep true) [] := by
        rw [foldl_normStep_keep true _ []
          (fun c m => ⟨(hgoodAll true c m).1, (hgoodAll true c m).2.1, hdd c m⟩)]
        rfl
      by_cases hss : startsSlash2 p = true ∧ startsSlash3 p = false
      · rw [if_pos hss]
        by_cases hout : (List.replicate 2 '/'
            ++ joinWith ['/'] ((pySplit '/' p).foldl (normStep true) [])) = []
        · rw [if_pos hout]
          decide
        · rw [if_neg hout]
          exact normpath_out 2 _ true (hgoodAll true) hfold
            (fun _ => Or.inr rfl) (fun h => absurd h (by decide)) hout
      · rw [if_neg hss]
        by_cases hout : (List.replicate 1 '/'
            ++ joinWith ['/'] ((pySplit '/' p).foldl (normStep true) [])) = []
        · rw [if_pos hout]
          decide
        · rw [if_neg hout]
          exact normpath_out 1 _ true (hgoodAll true) hfold
            (fun _ => Or.inl rfl) (fun h => absurd h (by decide)) hout
    · -- relative path: the filtered components are dot-dots followed by names
      have habs' : isabs p = false := by
        cases hcase : isabs p with
        | false => rfl
        | true => exact absurd hcase habs
      rw [if_neg habs, habs']
      have hfold : ((pySplit '/' p).foldl (normStep false) []).foldl (normStep false) []
          = (pySplit '/' p).foldl (normStep false) [] := by
        obtain ⟨j, rest, hshape, hrest⟩ :=
          foldl_normStep_ddPre (pySplit '/' p) [] ⟨0, [], rfl, by simp⟩
        rw [hshape, List.foldl_append]
        have h0 : (List.replicate j dd).foldl (normStep false) ([] : List Str)
            = List.replicate (0 + j) dd := foldl_dd_run j 0
        rw [h0]
        have hrgood : ∀ c ∈ rest, c ≠ [] ∧ c ≠ dot ∧ c ≠ dd := by
          intro c m
          have hmem : c ∈ (pySplit '/' p).foldl (normStep false) [] := by
            rw [hshape]
            exact List.mem_append_right _ m
          exact ⟨(hgoodAll false c hmem).1, (hgoodAll false c hmem).2.1, hrest c m⟩
        rw [foldl_normStep_keep false rest _ hrgood]
        rw [Nat.zero_add]
      by_cases hout : (List.replicate 0 '/'
          ++ joinWith ['/'] ((pySplit '/' p).foldl (normStep false) [])) = []
      · rw [if_pos hout]
        decide
      · rw [if_neg hout]
        exact normpath_out 0 _ false (hgoodAll false) hfold
          (fun h => absurd h (by decide)) (fun _ => rfl) hout

lemma abspath_of_abs (cwd x : Str) (h : isabs x = true) : abspath cwd x = normpath x := by
  unfold abspath
  rw [if_pos h]

lemma abspath_idem (cwd x : Str) (hc : isabs cwd = true) :
    abspath cwd (abspath cwd x) = abspath cwd x := by
  rw [abspath_of_abs cwd _ (isabs_abspath cwd x hc)]
  unfold abspath
  by_cases hx : isabs x = true
  · rw [if_pos hx]
    exact normpath_idem x
  · rw [if_neg hx]
    exact normpath_idem _

/-- C2: a resolver built from the single fragment p, when p (after user
expansion) names an existing regular file, stores and returns the containing
directory of that file — posixpath.join of the directory part of the absolute
path of p with the empty sibling — not the file path itself;  eu abstracts
os.path.expanduser, fs the os.path.isfile query, and cwd the absolute working
directory that os.getcwd returns. -/
theorem claim_C2 (eu : Str → Str) (fs : Str → Bool) (cwd p : Str)
    (hc : isabs cwd = true) (hf : fs (abspath cwd (eu p)) = true) :
    fromdirCall (fromdirInit eu fs cwd [p]) []
      = pjoin2 (dirname (abspath cwd (eu p))) [] := by
  show List.foldl (fromdirStep eu fs cwd) [] [p] = pjoin2 (dirname (abspath cwd (eu p))) []
  rw [List.foldl_cons, List.foldl_nil]
  have hj : pjoin2 [] (eu p) = eu p := by
    unfold pjoin2
    by_cases hb : isabs (eu p) = true
    · rw [if_pos hb]
    · rw [if_neg hb, if_pos (Or.inl rfl)]
      rfl
  show (if fs (abspath cwd (pjoin2 [] (eu p)))
        then sibpath cwd (abspath cwd (pjoin2 [] (eu p))) []
        else abspath cwd (pjoin2 [] (eu p)))
      = pjoin2 (dirname (abspath cwd (eu p))) []
  rw [hj, if_pos hf]
  unfold sibpath
  rw [abspath_idem cwd (eu p) hc]

theorem claim_C2_witness :
    isabs (("/").toList) = true
    ∧ (fun q => q == ("/etc/passwd").toList)
        (abspath (("/").toList) ((fun (s : Str) => s) (("/etc/passwd").toList))) = true
    ∧ fromdirCall
        (fromdirInit (fun (s : Str) => s) (fun q => q == ("/etc/passwd").toList)
          (("/").toList) [("/etc/passwd").toList]) []
        = ("/etc/").toList :=
  ⟨by decide, by decide,
    (claim_C2 (fun (s : Str) => s) (fun q => q == ("/etc/passwd").toList)
      (("/").toList) (("/etc/passwd").toList) (by decide) (by decide)).trans (by decide)⟩
